import Mathlib

/-!
Verification development for the market-predictions dashboard in
`src/app/main.py`: the train/validation/test partitioner, per-model
forecast normalization (numeric coercion and the DNN return-to-price
conversion), the rolling relative-error confidence band, the win-rate
edge computation, and the load/display orchestration.

Dates are modelled as trading-day ordinals (`ℕ`), prices and returns as
rationals, and missing values (NaN) as `Option`/`none`.  The two
fraction literals `0.7` and `0.9` in the source are IEEE-754 binary64
doubles, so the split points `int(total_days * 0.7)` and
`int(total_days * 0.9)` are modelled with an exact rational
round-to-nearest-even at binary64 precision.
-/

/-- Partition label assigned to each price row (`main.py` lines 36-38). -/
inductive Label where
  | train
  | validation
  | test
  deriving DecidableEq, Repr

/-- Fuel-driven base-2 logarithm; `log2F fuel n = ⌊log₂ n⌋` whenever
`1 ≤ n ≤ fuel`.  Structural in the fuel so it reduces in the kernel. -/
def log2F : Nat → Nat → Nat
  | 0, _ => 0
  | fuel + 1, n => if n ≤ 1 then 0 else log2F fuel (n / 2) + 1

/-- Base-2 logarithm of a natural number (floor). -/
def natLog2 (n : Nat) : Nat := log2F n n

/-- Round a rational to the nearest integer, ties to even. -/
def rnEven (x : ℚ) : ℤ :=
  if x - (⌊x⌋ : ℚ) < 1 / 2 then ⌊x⌋
  else if 1 / 2 < x - (⌊x⌋ : ℚ) then ⌊x⌋ + 1
  else if ⌊x⌋ % 2 = 0 then ⌊x⌋ else ⌊x⌋ + 1

/-- Binary exponent of a rational `q` with `1/2 ≤ q`: the `e` with
`2 ^ e ≤ q < 2 ^ (e + 1)`. -/
def expOf (q : ℚ) : ℤ :=
  if 1 ≤ q then (natLog2 ⌊q⌋.toNat : ℤ) else -1

/-- Round to nearest, ties to even, at binary64 precision (52 fraction
bits), for arguments that are zero or at least `1/2` — the only values
the pipeline feeds it.  A normal-range double is `m · 2 ^ (e - 52)` with
`2 ^ 52 ≤ m < 2 ^ 53`. -/
def roundD (q : ℚ) : ℚ :=
  if q ≤ 0 then 0
  else (rnEven (q * 2 ^ ((52 : ℤ) - expOf q)) : ℚ) * 2 ^ (expOf q - 52)

/-- The binary64 double denoted by the literal `0.7` in `main.py` line 32. -/
def c07 : ℚ := 3152519739159347 / 2 ^ 52

/-- The binary64 double denoted by the literal `0.9` in `main.py` line 33. -/
def c09 : ℚ := 8106479329266893 / 2 ^ 53

/-- Code line 32: `train_end = int(total_days * 0.7)` — truncation of the
binary64 product. -/
def trainEnd (n : ℕ) : ℕ := ⌊roundD (n * c07)⌋.toNat

/-- Code line 33: `val_end = int(total_days * 0.9)`. -/
def valEnd (n : ℕ) : ℕ := ⌊roundD (n * c09)⌋.toNat

/-- Positional slice assignment `xs.iloc[a:b] = v` (half-open, clamped to
the list), as used by `main.py` lines 37-38. -/
def overwrite : List Label → ℕ → ℕ → Label → List Label
  | [], _, _, _ => []
  | x :: xs, a, b, v =>
    (if a = 0 ∧ 0 < b then v else x) :: overwrite xs (a - 1) (b - 1) v

/-- Code lines 36-38: every row starts as `train`, rows
`[train_end, val_end)` are overwritten with `validation`, then rows
`[val_end, n)` with `test`. -/
def codeSplits (n : ℕ) : List Label :=
  overwrite
    (overwrite (List.replicate n Label.train) (trainEnd n) (valEnd n) Label.validation)
    (valEnd n) n Label.test

theorem log2F_spec :
    ∀ fuel n, 1 ≤ n → n ≤ fuel →
      2 ^ log2F fuel n ≤ n ∧ n < 2 ^ (log2F fuel n + 1)
  | 0, n, h1, h2 => absurd h2 (by omega)
  | fuel + 1, n, h1, h2 => by
    unfold log2F
    by_cases hn : n ≤ 1
    · have hn1 : n = 1 := by omega
      subst hn1
      simp
    · have hrec := log2F_spec fuel (n / 2) (by omega) (by omega)
      rw [if_neg hn]
      obtain ⟨hlo, hhi⟩ := hrec
      constructor
      · have : 2 ^ (log2F fuel (n / 2) + 1) = 2 * 2 ^ log2F fuel (n / 2) := by ring
        rw [this]
        omega
      · have : 2 ^ (log2F fuel (n / 2) + 1 + 1) = 2 * 2 ^ (log2F fuel (n / 2) + 1) := by
          ring
        rw [this]
        omega

theorem natLog2_spec (n : ℕ) (h : 1 ≤ n) :
    2 ^ natLog2 n ≤ n ∧ n < 2 ^ (natLog2 n + 1) :=
  log2F_spec n n h le_rfl

theorem rnEven_abs_le (x : ℚ) : |(rnEven x : ℚ) - x| ≤ 1 / 2 := by
  have h0 : (⌊x⌋ : ℚ) ≤ x := Int.floor_le x
  have h1 : x < ⌊x⌋ + 1 := Int.lt_floor_add_one x
  unfold rnEven
  split_ifs with hc1 hc2 hc3 <;>
    · push_cast
      rw [abs_le]
      constructor <;> linarith

theorem expOf_pow_le (q : ℚ) (hq : 1 / 2 ≤ q) : (2 : ℚ) ^ expOf q ≤ q := by
  unfold expOf
  by_cases h1 : 1 ≤ q
  · rw [if_pos h1]
    have hfl : (1 : ℤ) ≤ ⌊q⌋ := Int.le_floor.mpr (by exact_mod_cast h1)
    have htn : 1 ≤ ⌊q⌋.toNat := by omega
    have hspec := (natLog2_spec ⌊q⌋.toNat htn).1
    have hcast : ((2 ^ natLog2 ⌊q⌋.toNat : ℕ) : ℚ) ≤ ((⌊q⌋.toNat : ℕ) : ℚ) := by
      exact_mod_cast hspec
    have htofl : ((⌊q⌋.toNat : ℕ) : ℚ) = ((⌊q⌋ : ℤ) : ℚ) := by
      have : (⌊q⌋.toNat : ℤ) = ⌊q⌋ := Int.toNat_of_nonneg (by omega)
      exact_mod_cast this
    have hflq : ((⌊q⌋ : ℤ) : ℚ) ≤ q := Int.floor_le q
    rw [zpow_natCast]
    push_cast at hcast
    linarith
  · rw [if_neg h1]
    have h2 : (2 : ℚ) ^ (-1 : ℤ) = 1 / 2 := by norm_num
    rw [h2]
    exact hq

theorem roundD_bounds (q : ℚ) (hq : 1 / 2 ≤ q) :
    q * (1 - 1 / 2 ^ 53) ≤ roundD q ∧ roundD q ≤ q * (1 + 1 / 2 ^ 53) := by
  have hq0 : ¬ q ≤ 0 := by linarith
  have h2 : (2 : ℚ) ≠ 0 := by norm_num
  unfold roundD
  rw [if_neg hq0]
  set e := expOf q with he
  set A : ℚ := (rnEven (q * 2 ^ ((52 : ℤ) - e)) : ℚ) with hA
  have hXq : q * 2 ^ ((52 : ℤ) - e) * 2 ^ (e - 52) = q := by
    rw [mul_assoc, ← zpow_add₀ h2]
    norm_num
  have hpow : (0 : ℚ) < 2 ^ (e - 52) := zpow_pos (by norm_num) _
  have hdiff : A * 2 ^ (e - 52) - q = (A - q * 2 ^ ((52 : ℤ) - e)) * 2 ^ (e - 52) := by
    rw [sub_mul, hXq]
  have habs : |A * 2 ^ (e - 52) - q| ≤ (1 / 2) * 2 ^ (e - 52) := by
    rw [hdiff, abs_mul, abs_of_pos hpow]
    exact mul_le_mul_of_nonneg_right (rnEven_abs_le _) (le_of_lt hpow)
  have hhalf : (1 / 2 : ℚ) * 2 ^ (e - 52) = 2 ^ e * (1 / 2 ^ 53) := by
    have hm1 : (1 / 2 : ℚ) = 2 ^ (-1 : ℤ) := by norm_num
    have hm53 : (1 / 2 ^ 53 : ℚ) = 2 ^ (-53 : ℤ) := by
      rw [one_div, ← zpow_natCast (2 : ℚ) 53, ← zpow_neg]
      norm_num
    rw [hm1, hm53, ← zpow_add₀ h2, ← zpow_add₀ h2]
    congr 1
    ring
  have h2e : (2 : ℚ) ^ e ≤ q := expOf_pow_le q hq
  have hfin : |A * 2 ^ (e - 52) - q| ≤ q * (1 / 2 ^ 53) := by
    calc |A * 2 ^ (e - 52) - q| ≤ (1 / 2) * 2 ^ (e - 52) := habs
      _ = 2 ^ e * (1 / 2 ^ 53) := hhalf
      _ ≤ q * (1 / 2 ^ 53) := by
          apply mul_le_mul_of_nonneg_right h2e
          positivity
  rw [abs_le] at hfin
  constructor <;> nlinarith [hfin.1, hfin.2]

theorem c07_half_le : (1 / 2 : ℚ) ≤ c07 := by
  unfold c07
  norm_num

theorem c09_half_le : (1 / 2 : ℚ) ≤ c09 := by
  unfold c09
  norm_num

theorem roundD_zero : roundD 0 = 0 := by
  unfold roundD
  norm_num

theorem trainEnd_zero : trainEnd 0 = 0 := by
  unfold trainEnd
  norm_num [roundD_zero]

theorem valEnd_zero : valEnd 0 = 0 := by
  unfold valEnd
  norm_num [roundD_zero]

theorem trainEnd_le_valEnd (n : ℕ) : trainEnd n ≤ valEnd n := by
  rcases Nat.eq_zero_or_pos n with h0 | hpos
  · subst h0
    rw [trainEnd_zero, valEnd_zero]
  · have hn1 : (1 : ℚ) ≤ (n : ℚ) := by exact_mod_cast hpos
    have h7 : (1 / 2 : ℚ) ≤ (n : ℚ) * c07 := by nlinarith [c07_half_le]
    have h9 : (1 / 2 : ℚ) ≤ (n : ℚ) * c09 := by nlinarith [c09_half_le]
    have hb7 := (roundD_bounds _ h7).2
    have hb9 := (roundD_bounds _ h9).1
    have hcc : c07 * (1 + 1 / 2 ^ 53) ≤ c09 * (1 - 1 / 2 ^ 53) := by
      unfold c07 c09
      norm_num
    have hmid : (n : ℚ) * c07 * (1 + 1 / 2 ^ 53) ≤ (n : ℚ) * c09 * (1 - 1 / 2 ^ 53) := by
      have hn0 : (0 : ℚ) ≤ (n : ℚ) := by positivity
      nlinarith
    have hle : roundD ((n : ℚ) * c07) ≤ roundD ((n : ℚ) * c09) := by linarith
    have hfl : ⌊roundD ((n : ℚ) * c07)⌋ ≤ ⌊roundD ((n : ℚ) * c09)⌋ := Int.floor_mono hle
    unfold trainEnd valEnd
    omega

theorem valEnd_lt (n : ℕ) (h : 1 ≤ n) : valEnd n < n := by
  have hn1 : (1 : ℚ) ≤ (n : ℚ) := by exact_mod_cast h
  have h9 : (1 / 2 : ℚ) ≤ (n : ℚ) * c09 := by nlinarith [c09_half_le]
  have hb9 := (roundD_bounds _ h9).2
  have hcc : c09 * (1 + 1 / 2 ^ 53) < 1 := by
    unfold c09
    norm_num
  have hlt : roundD ((n : ℚ) * c09) < (n : ℚ) := by nlinarith
  have hfl : ⌊roundD ((n : ℚ) * c09)⌋ < (n : ℤ) := by
    rw [Int.floor_lt]
    exact_mod_cast hlt
  unfold valEnd
  omega

theorem valEnd_le (n : ℕ) : valEnd n ≤ n := by
  rcases Nat.eq_zero_or_pos n with h0 | hpos
  · subst h0
    rw [valEnd_zero]
  · exact le_of_lt (valEnd_lt n hpos)

theorem rnEven_eq_of_lt (x : ℚ) (m : ℤ) (h1 : ⌊x⌋ = m) (h2 : x - (m : ℚ) < 1 / 2) :
    rnEven x = m := by
  unfold rnEven
  rw [h1, if_pos h2]

theorem expOf_eval (q : ℚ) (n : ℕ) (h1 : 1 ≤ q) (h2 : ⌊q⌋.toNat = n) :
    expOf q = natLog2 n := by
  unfold expOf
  rw [if_pos h1, h2]

theorem roundD_eval (q : ℚ) (e m : ℤ) (hq : ¬ q ≤ 0) (he : expOf q = e)
    (hm : rnEven (q * 2 ^ ((52 : ℤ) - e)) = m) :
    roundD q = (m : ℚ) * 2 ^ (e - 52) := by
  unfold roundD
  rw [if_neg hq, he, hm]

theorem trainEnd_90 : trainEnd 90 = 62 := by
  have hfl : ⌊(90 : ℚ) * c07⌋.toNat = 62 := by
    have h : ⌊(90 : ℚ) * c07⌋ = 62 := by
      unfold c07
      norm_num
    rw [h]
    rfl
  have he : expOf ((90 : ℚ) * c07) = 5 := by
    rw [expOf_eval ((90 : ℚ) * c07) 62 (by unfold c07; norm_num) hfl]
    rfl
  have hm : rnEven ((90 : ℚ) * c07 * 2 ^ ((52 : ℤ) - 5)) = 8866461766385663 := by
    apply rnEven_eq_of_lt
    · unfold c07
      norm_num
    · unfold c07
      push_cast
      norm_num
  have hr := roundD_eval ((90 : ℚ) * c07) 5 8866461766385663
    (by unfold c07; norm_num) he hm
  unfold trainEnd
  simp only [Nat.cast_ofNat]
  rw [hr]
  have h62 : ⌊((8866461766385663 : ℤ) : ℚ) * 2 ^ ((5 : ℤ) - 52)⌋ = (62 : ℤ) := by
    push_cast
    norm_num
  rw [h62]
  rfl

theorem valEnd_90 : valEnd 90 = 81 := by
  have hfl : ⌊(90 : ℚ) * c09⌋.toNat = 81 := by
    have h : ⌊(90 : ℚ) * c09⌋ = 81 := by
      unfold c09
      norm_num
    rw [h]
    rfl
  have he : expOf ((90 : ℚ) * c09) = 6 := by
    rw [expOf_eval ((90 : ℚ) * c09) 81 (by unfold c09; norm_num) hfl]
    rfl
  have hm : rnEven ((90 : ℚ) * c09 * 2 ^ ((52 : ℤ) - 6)) = 5699868278390784 := by
    apply rnEven_eq_of_lt
    · unfold c09
      norm_num
    · unfold c09
      push_cast
      norm_num
  have hr := roundD_eval ((90 : ℚ) * c09) 6 5699868278390784
    (by unfold c09; norm_num) he hm
  unfold valEnd
  simp only [Nat.cast_ofNat]
  rw [hr]
  have h81 : ⌊((5699868278390784 : ℤ) : ℚ) * 2 ^ ((6 : ℤ) - 52)⌋ = (81 : ℤ) := by
    push_cast
    norm_num
  rw [h81]
  rfl

theorem overwrite_append (l₁ l₂ : List Label) (a b : ℕ) (v : Label) :
    overwrite (l₁ ++ l₂) a b v
      = overwrite l₁ a b v ++ overwrite l₂ (a - l₁.length) (b - l₁.length) v := by
  induction l₁ generalizing a b with
  | nil => simp [overwrite]
  | cons x xs ih =>
    simp only [List.cons_append, overwrite, List.append_eq, List.length_cons]
    rw [ih]
    rw [show a - 1 - xs.length = a - (xs.length + 1) by omega,
      show b - 1 - xs.length = b - (xs.length + 1) by omega]

theorem overwrite_ge (l : List Label) (a b : ℕ) (v : Label) (h : l.length ≤ a) :
    overwrite l a b v = l := by
  induction l generalizing a b with
  | nil => rfl
  | cons x xs ih =>
    simp only [List.length_cons] at h
    simp only [overwrite]
    rw [if_neg (by omega : ¬ (a = 0 ∧ 0 < b))]
    rw [ih (a - 1) (b - 1) (by omega)]

theorem overwrite_replicate_zero (m b : ℕ) (c v : Label) :
    overwrite (List.replicate m c) 0 b v
      = List.replicate (min b m) v ++ List.replicate (m - b) c := by
  induction m generalizing b with
  | zero => simp [overwrite]
  | succ m ih =>
    rw [List.replicate_succ]
    show (if (0 : ℕ) = 0 ∧ 0 < b then v else c)
        :: overwrite (List.replicate m c) (0 - 1) (b - 1) v = _
    rcases Nat.eq_zero_or_pos b with hb | hb
    · subst hb
      rw [if_neg (by omega : ¬ ((0 : ℕ) = 0 ∧ 0 < 0))]
      simp only [Nat.zero_sub, ih]
      simp [List.replicate_succ]
    · rw [if_pos ⟨rfl, hb⟩]
      simp only [Nat.zero_sub, ih]
      rw [show min b (m + 1) = min (b - 1) m + 1 by omega,
        show m + 1 - b = m - (b - 1) by omega, List.replicate_succ]
      simp

theorem codeSplits_eq (n : ℕ) :
    codeSplits n
      = List.replicate (trainEnd n) Label.train
        ++ List.replicate (valEnd n - trainEnd n) Label.validation
        ++ List.replicate (n - valEnd n) Label.test := by
  have htv := trainEnd_le_valEnd n
  have hvn := valEnd_le n
  unfold codeSplits
  set t := trainEnd n with ht
  set v := valEnd n with hv
  have hsplit : List.replicate n Label.train
      = List.replicate t Label.train ++ List.replicate (n - t) Label.train := by
    rw [← List.replicate_add]
    congr 1
    omega
  have hinner :
      overwrite (List.replicate n Label.train) t v Label.validation
        = List.replicate t Label.train ++ List.replicate (v - t) Label.validation
          ++ List.replicate (n - v) Label.train := by
    rw [hsplit, overwrite_append,
      overwrite_ge _ _ _ _ (by simp)]
    simp only [List.length_replicate]
    rw [Nat.sub_self, overwrite_replicate_zero,
      show min (v - t) (n - t) = v - t by omega,
      show n - t - (v - t) = n - v by omega]
    rw [List.append_assoc]
  rw [hinner, overwrite_append,
    overwrite_ge _ _ _ _ (by simp; omega)]
  simp only [List.length_append, List.length_replicate]
  rw [show t + (v - t) = v by omega, Nat.sub_self, overwrite_replicate_zero,
    show min (n - v) (n - v) = n - v by omega, Nat.sub_self]
  simp [List.append_assoc]

/-- C2 (amended): the partitioner labels each of the `N` ordered rows with
exactly one label, the partitions are contiguous and order-preserving (a
`train` block, then a `validation` block, then a `test` block), and the
sizes are `int(fl64(0.7·N))`, `int(fl64(0.9·N)) - int(fl64(0.7·N))` and
`N - int(fl64(0.9·N))`, where `fl64` is the binary64 product the code
truncates.  These truncated float products equal `⌊0.7N⌋`/`⌊0.9N⌋` for
many `N` but not all (the code truncates the *rounded double* product,
not the exact one — see the counterexample at `N = 90`). -/
theorem c2_partitioner_amended (n : ℕ) :
    codeSplits n
      = List.replicate (trainEnd n) Label.train
        ++ List.replicate (valEnd n - trainEnd n) Label.validation
        ++ List.replicate (n - valEnd n) Label.test
    ∧ (codeSplits n).length = n
    ∧ (codeSplits n).count Label.train = trainEnd n
    ∧ (codeSplits n).count Label.validation = valEnd n - trainEnd n
    ∧ (codeSplits n).count Label.test = n - valEnd n := by
  have htv := trainEnd_le_valEnd n
  have hvn := valEnd_le n
  have h := codeSplits_eq n
  refine ⟨h, ?_, ?_, ?_, ?_⟩ <;>
    · rw [h]
      simp [List.length_append, List.length_replicate, List.count_append,
        List.count_replicate,
        show (Label.validation == Label.train) = false from rfl,
        show (Label.test == Label.train) = false from rfl,
        show (Label.train == Label.validation) = false from rfl,
        show (Label.test == Label.validation) = false from rfl,
        show (Label.train == Label.test) = false from rfl,
        show (Label.validation == Label.test) = false from rfl] <;>
        omega

/-- C2 counterexample: with `N = 90` price rows, the code's train
partition has 62 rows while the claimed size `floor(0.7 · N)` is 63 —
`int(90 * 0.7)` truncates the binary64 product `62.99999999999999…`,
one below the exact `⌊0.7 · 90⌋`. -/
theorem c2_counterexample :
    (codeSplits 90).count Label.train = 62 ∧ 7 * 90 / 10 = 63 := by
  constructor
  · rw [codeSplits_eq 90, trainEnd_90, valEnd_90]
    decide
  · decide

/-- Raw cell of a forecast column before numeric coercion: a numeric
value (numeric strings that `pd.to_numeric` parses count as numeric), a
non-numeric unparseable entry, or SQL NULL. -/
inductive RawCell where
  | num (q : ℚ)
  | nonNumeric
  | null
  deriving DecidableEq, Repr

/-- Code line 70, `pd.to_numeric(col, errors='coerce')` on one cell:
non-numeric entries become missing (NaN), numeric values survive. -/
def toNumericCell : RawCell → Option ℚ
  | RawCell.num q => some q
  | RawCell.nonNumeric => none
  | RawCell.null => none

/-- Raw forecast row as read from the `{model}_predictions` table (the
date is a trading-day ordinal). -/
structure RawRow where
  date : ℕ
  pv : RawCell
  cl : RawCell
  cu : RawCell
  deriving DecidableEq, Repr

/-- Forecast row after numeric coercion (`predicted_value`,
`confidence_lower`, `confidence_upper` as optional rationals). -/
structure NRow where
  date : ℕ
  pv : Option ℚ
  cl : Option ℚ
  cu : Option ℚ
  deriving DecidableEq, Repr

/-- Code lines 66-70: coerce the three numeric columns of one row, field
by field. -/
def coerceRow (r : RawRow) : NRow :=
  ⟨r.date, toNumericCell r.pv, toNumericCell r.cl, toNumericCell r.cu⟩

/-- Normalization pass for the price-denominated models (`arima`,
`prophet`): an identity pass that only coerces numeric fields row by
row (code lines 62-70). -/
def normalizePrice (rows : List RawRow) : List NRow := rows.map coerceRow

/-- Code line 77, `market_data['close'].shift(-3)`: the series whose
value at each position is the close three positions later, missing past
the end of the history. -/
def shiftClose : List (ℕ × ℚ) → List (ℕ × Option ℚ)
  | [] => []
  | p :: tl => (p.1, (tl.get? 2).map Prod.snd) :: shiftClose tl

/-- Code line 78, `.reindex(pred_df.index)` read at one date: the first
entry of the (shifted) series carrying that date, missing when the date
is absent from the price index. -/
def reindexAt (s : List (ℕ × Option ℚ)) (d : ℕ) : Option ℚ :=
  match s.find? fun p => p.1 == d with
  | some p => p.2
  | none => none

/-- NaN-propagating product of two optional values. -/
def omul (a b : Option ℚ) : Option ℚ := a.bind fun x => b.map fun y => x * y

/-- Code lines 81-83: rebuild a price from a percentage return `x` and
the shifted close, `close * (1 + x / 100)`, applied independently to the
three columns of one DNN row. -/
def dnnTransform (m : List (ℕ × ℚ)) (r : NRow) : NRow :=
  ⟨r.date,
    omul (reindexAt (shiftClose m) r.date) (r.pv.map fun x => 1 + x / 100),
    omul (reindexAt (shiftClose m) r.date) (r.cl.map fun x => 1 + x / 100),
    omul (reindexAt (shiftClose m) r.date) (r.cu.map fun x => 1 + x / 100)⟩

/-- Code lines 73-84 applied to the whole DNN forecast frame. -/
def dnnNormalize (m : List (ℕ × ℚ)) (rows : List NRow) : List NRow :=
  rows.map (dnnTransform m)

/-- Specification-side lookup: the realized close `H` trading days after
date `d` — the close at position `i + H` where `i` is the position of
`d` in the ordered price series, missing when `d` is absent or `i + H`
is past the end. -/
def closeAfter (m : List (ℕ × ℚ)) (d H : ℕ) : Option ℚ :=
  match m.findIdx? (fun p => p.1 == d) with
  | some i => (m.get? (i + H)).map Prod.snd
  | none => none

theorem reindexAt_shiftClose (m : List (ℕ × ℚ)) (d : ℕ) :
    reindexAt (shiftClose m) d = closeAfter m d 3 := by
  induction m with
  | nil => rfl
  | cons p tl ih =>
    show reindexAt ((p.1, (tl.get? 2).map Prod.snd) :: shiftClose tl) d = _
    unfold reindexAt closeAfter
    rw [List.findIdx?_cons]
    by_cases hd : (p.1 == d) = true
    · rw [List.find?_cons_of_pos (p := fun q => q.1 == d)
        (a := (p.1, (tl.get? 2).map Prod.snd)) _ hd, if_pos hd]
      rfl
    · rw [List.find?_cons_of_neg (p := fun q => q.1 == d)
        (a := (p.1, (tl.get? 2).map Prod.snd)) _ (by simpa using hd),
        if_neg hd, List.findIdx?_succ]
      unfold reindexAt closeAfter at ih
      rcases hfi : List.findIdx? (fun q => q.1 == d) tl with _ | i
      · rw [hfi] at ih
        rw [hfi, Option.map_none']
        exact ih
      · rw [hfi] at ih
        rw [hfi, Option.map_some']
        show _ = Option.map Prod.snd ((p :: tl).get? (i + 1 + 3))
        rw [show i + 1 + 3 = i + 3 + 1 by omega, List.get?_cons_succ]
        exact ih

/-- C1: for every DNN (return-denominated) forecast row at date `d`, the
normalized `predicted_value` equals `close(d+3) * (1 + predicted_value/100)`
where `close(d+3)` (`closeAfter`) is the realized close three trading
days (positions) after `d`; the identical transformation is applied
independently to `confidence_lower` and `confidence_upper`; the date is
unchanged; and because the close is combined through `Option.bind`, the
normalized value is missing whenever `close(d+3)` is unavailable — `d`
absent from the price index or within the last three positions of the
history (`closeAfter = none`). -/
theorem c1_dnn_return_normalization (m : List (ℕ × ℚ)) (r : NRow) :
    (dnnTransform m r).pv
        = (closeAfter m r.date 3).bind (fun c => r.pv.map fun x => c * (1 + x / 100))
    ∧ (dnnTransform m r).cl
        = (closeAfter m r.date 3).bind (fun c => r.cl.map fun x => c * (1 + x / 100))
    ∧ (dnnTransform m r).cu
        = (closeAfter m r.date 3).bind (fun c => r.cu.map fun x => c * (1 + x / 100))
    ∧ (dnnTransform m r).date = r.date := by
  obtain ⟨d, pv, cl, cu⟩ := r
  simp only [dnnTransform, reindexAt_shiftClose]
  refine ⟨?_, ?_, ?_, by trivial⟩ <;>
    cases closeAfter m d 3 <;> cases pv <;> cases cl <;> cases cu <;> rfl

/-- C8: a price-denominated forecast sequence with one malformed row
(non-numeric `predicted_value`) normalizes to the same sequence with
only that row's `predicted_value` missing: the pass is per-row (the
rows before and after are coerced exactly as they would be on their
own), the sequence keeps its full length (no abort), and within the
malformed row the failure is per-field — the date, `confidence_lower`
and `confidence_upper` coerce exactly as usual. -/
theorem c8_malformed_row (pre post : List RawRow) (bad : RawRow)
    (hbad : bad.pv = RawCell.nonNumeric) :
    normalizePrice (pre ++ bad :: post)
        = normalizePrice pre ++ coerceRow bad :: normalizePrice post
    ∧ (normalizePrice (pre ++ bad :: post)).length = pre.length + 1 + post.length
    ∧ (coerceRow bad).pv = none
    ∧ (coerceRow bad).date = bad.date
    ∧ (coerceRow bad).cl = toNumericCell bad.cl
    ∧ (coerceRow bad).cu = toNumericCell bad.cu := by
  refine ⟨by simp [normalizePrice], ?_, ?_, rfl, rfl, rfl⟩
  · simp [normalizePrice]
    omega
  · show toNumericCell bad.pv = none
    rw [hbad]
    rfl

/-- C8 witness: a concrete one-row stream whose `predicted_value` is
non-numeric, run through `c8_malformed_row`. -/
theorem c8_witness :
    (RawRow.mk 1 RawCell.nonNumeric (RawCell.num 8) (RawCell.num 12)).pv = RawCell.nonNumeric
    ∧ (normalizePrice ([] ++ RawRow.mk 1 RawCell.nonNumeric (RawCell.num 8) (RawCell.num 12) :: [])
          = normalizePrice []
            ++ coerceRow (RawRow.mk 1 RawCell.nonNumeric (RawCell.num 8) (RawCell.num 12))
              :: normalizePrice []
        ∧ (normalizePrice ([] ++ RawRow.mk 1 RawCell.nonNumeric (RawCell.num 8) (RawCell.num 12) :: [])).length
            = List.length ([] : List RawRow) + 1 + List.length ([] : List RawRow)
        ∧ (coerceRow (RawRow.mk 1 RawCell.nonNumeric (RawCell.num 8) (RawCell.num 12))).pv = none
        ∧ (coerceRow (RawRow.mk 1 RawCell.nonNumeric (RawCell.num 8) (RawCell.num 12))).date
            = (RawRow.mk 1 RawCell.nonNumeric (RawCell.num 8) (RawCell.num 12)).date
        ∧ (coerceRow (RawRow.mk 1 RawCell.nonNumeric (RawCell.num 8) (RawCell.num 12))).cl
            = toNumericCell (RawRow.mk 1 RawCell.nonNumeric (RawCell.num 8) (RawCell.num 12)).cl
        ∧ (coerceRow (RawRow.mk 1 RawCell.nonNumeric (RawCell.num 8) (RawCell.num 12))).cu
            = toNumericCell (RawRow.mk 1 RawCell.nonNumeric (RawCell.num 8) (RawCell.num 12)).cu) :=
  ⟨rfl, c8_malformed_row [] [] (RawRow.mk 1 RawCell.nonNumeric (RawCell.num 8) (RawCell.num 12)) rfl⟩

/-- Value of one relative-error observation: a finite number, `+inf` or
`-inf` (nonzero numerator divided by a zero prediction), or NaN. -/
inductive RVal where
  | num (q : ℚ)
  | pinf
  | ninf
  | nan
  deriving DecidableEq, Repr

/-- Code line 178, `(actual - predicted) / predicted` for one aligned
observation, with IEEE semantics: NaN when either side is missing or at
`0/0`, `±inf` when only the prediction is zero. -/
def relErr (a p : Option ℚ) : RVal :=
  match a, p with
  | some a, some p =>
    if p = 0 then (if 0 < a then RVal.pinf else if a < 0 then RVal.ninf else RVal.nan)
    else RVal.num ((a - p) / p)
  | _, _ => RVal.nan

/-- Code line 178 over the whole aligned pair of series (position `i`
is the `i`-th test-period date present in the forecast index). -/
def errsOf (as ps : List (Option ℚ)) : List RVal := List.zipWith relErr as ps

/-- Trailing window of at most 20 observations ending at position `i`
(code line 179, `rolling(window=20, min_periods=1)`). -/
def window (es : List RVal) (i : ℕ) : List RVal := (es.take (i + 1)).drop (i + 1 - 20)

/-- Numeric observations of a window.  The pandas rolling machinery
skips NaN entries, and its `_prep_values` step converts `±inf` to NaN
before aggregating, so infinite observations are likewise skipped: only
the `num` entries count toward `min_periods` and the statistic. -/
def numsOf (w : List RVal) : List ℚ :=
  w.filterMap fun v => match v with | RVal.num q => some q | _ => none

/-- Sample variance (`ddof = 1`) of a list of rationals. -/
def sampleVar (l : List ℚ) : ℚ :=
  ((l.map fun x => (x - l.sum / (l.length : ℚ)) ^ 2).sum) / ((l.length : ℚ) - 1)

/-- Code line 179, `errors.rolling(window=20, min_periods=1).std()` at
position `i`, squared: the rolling sample variance over the numeric
observations of the trailing window (NaN and `±inf` entries are both
excluded, the latter because pandas `_prep_values` converts them to NaN
before aggregation).  The result is missing (NaN) when fewer than two
numeric observations remain — with `ddof = 1` the sample standard
deviation of a single observation is NaN even though `min_periods=1`
lets pandas attempt it.  The std itself is the nonnegative square root
of this value, irrational in general, so the theorems below constrain
the band through the variance. -/
def rollingVar (es : List RVal) (i : ℕ) : Option ℚ :=
  let w := window es i
  if 2 ≤ (numsOf w).length then some (sampleVar (numsOf w)) else none

/-- Code line 182: `upper = predicted * (1 + 2 * error_std)`. -/
def bandUpper (p σ : ℚ) : ℚ := p * (1 + 2 * σ)

/-- Code line 183: `lower = predicted * (1 - 2 * error_std)`. -/
def bandLower (p σ : ℚ) : ℚ := p * (1 - 2 * σ)

/-- Aligned predicted value at position `i`. -/
def predAt (ps : List (Option ℚ)) (i : ℕ) : Option ℚ := (ps[i]?).getD none

theorem window_congr (es₁ es₂ : List RVal) (t i : ℕ)
    (h : es₁.take (t + 1) = es₂.take (t + 1)) (hi : i ≤ t) :
    window es₁ i = window es₂ i := by
  unfold window
  have e1 : es₁.take (i + 1) = (es₁.take (t + 1)).take (i + 1) := by
    rw [List.take_take, Nat.min_eq_left (by omega)]
  have e2 : es₂.take (i + 1) = (es₂.take (t + 1)).take (i + 1) := by
    rw [List.take_take, Nat.min_eq_left (by omega)]
  rw [e1, e2, h]

/-- C3: the band inputs are causal.  If two test-period datasets
(aligned actual closes and predictions) agree at every position up to
`t` — they may differ arbitrarily from position `t + 1` on — then at
every position `i ≤ t` the rolling variance of the relative errors and
the predicted value agree, hence so do the band values
`predicted * (1 ± 2·√variance)` drawn at `i`: each point's statistic
uses only itself and up to 19 preceding aligned observations, never a
future one. -/
theorem c3_causal_band (a₁ p₁ a₂ p₂ : List (Option ℚ)) (t i : ℕ)
    (ha : a₁.take (t + 1) = a₂.take (t + 1))
    (hp : p₁.take (t + 1) = p₂.take (t + 1)) (hi : i ≤ t) :
    rollingVar (errsOf a₁ p₁) i = rollingVar (errsOf a₂ p₂) i
    ∧ predAt p₁ i = predAt p₂ i := by
  have he : (errsOf a₁ p₁).take (t + 1) = (errsOf a₂ p₂).take (t + 1) := by
    unfold errsOf
    rw [List.take_zipWith, List.take_zipWith, ha, hp]
  constructor
  · unfold rollingVar
    rw [window_congr _ _ t i he hi]
  · have hg : p₁[i]? = p₂[i]? := by
      rw [← List.getElem?_take_of_lt (l := p₁) (n := t + 1) (by omega),
        ← List.getElem?_take_of_lt (l := p₂) (n := t + 1) (by omega), hp]
    unfold predAt
    rw [hg]

/-- C3 witness: two concrete datasets that agree up to position 1 and
differ at position 2 produce identical band inputs at position 1. -/
theorem c3_witness :
    [some (1 : ℚ), some 2, some 3].take 2 = [some (1 : ℚ), some 2, some 99].take 2
    ∧ [some (1 : ℚ), some 1, some 1].take 2 = [some (1 : ℚ), some 1, some 1].take 2
    ∧ 1 ≤ 1
    ∧ (rollingVar (errsOf [some (1 : ℚ), some 2, some 3] [some (1 : ℚ), some 1, some 1]) 1
          = rollingVar (errsOf [some (1 : ℚ), some 2, some 99] [some (1 : ℚ), some 1, some 1]) 1
        ∧ predAt [some (1 : ℚ), some 1, some 1] 1 = predAt [some (1 : ℚ), some 1, some 1] 1) :=
  ⟨rfl, rfl, le_rfl,
    c3_causal_band [some (1 : ℚ), some 2, some 3] [some (1 : ℚ), some 1, some 1]
      [some (1 : ℚ), some 2, some 99] [some (1 : ℚ), some 1, some 1] 1 1 rfl rfl le_rfl⟩

theorem relErr_num (a p : ℚ) (hp : ¬ p = 0) :
    relErr (some a) (some p) = RVal.num ((a - p) / p) := by
  show (if p = 0 then (if 0 < a then RVal.pinf else if a < 0 then RVal.ninf else RVal.nan)
      else RVal.num ((a - p) / p)) = RVal.num ((a - p) / p)
  rw [if_neg hp]

/-- C4 counterexample: at the very first aligned observation the rolling
sample standard deviation is *not* defined — the window holds a single
observation and `ddof = 1` makes its sample std NaN despite
`min_periods=1` — so the statistic (and the band) is missing there,
refuting "defined from the first aligned observation onward with a
minimum of 1 observation". -/
theorem c4_counterexample :
    errsOf [some (105 : ℚ)] [some (100 : ℚ)] = [RVal.num (1 / 20)]
    ∧ rollingVar (errsOf [some (105 : ℚ)] [some (100 : ℚ)]) 0 = none := by
  have h : errsOf [some (105 : ℚ)] [some (100 : ℚ)] = [RVal.num (1 / 20)] := by
    show [relErr (some (105 : ℚ)) (some (100 : ℚ))] = _
    rw [relErr_num _ _ (by norm_num)]
    norm_num
  refine ⟨h, ?_⟩
  rw [h]
  rfl

/-- C4 (amended): the rolling std is never defined at the first aligned
observation (`rollingVar es 0 = none` for every error series), and in
general it is defined exactly when the trailing window holds at least
two numeric observations — the effective minimum is 2 observations,
not the 1 suggested by `min_periods=1`, because the sample standard
deviation (`ddof = 1`) of a single observation is NaN. -/
theorem c4_amended_min_two (es : List RVal) (i : ℕ) :
    rollingVar es 0 = none
    ∧ ((rollingVar es i).isSome = true
        ↔ 2 ≤ (numsOf (window es i)).length) := by
  constructor
  · cases es with
    | nil => rfl
    | cons x tl => cases x <;> rfl
  · unfold rollingVar
    by_cases h2 : 2 ≤ (numsOf (window es i)).length
    · simp [h2]
    · simp [h2]

/-- C5: a zero or missing predicted value is excluded from the rolling
window.  A missing predicted value yields a NaN relative error; a zero
predicted value yields `±inf` or NaN, never a numeric observation, and
pandas `_prep_values` converts `±inf` to NaN before aggregating — so in
either case the observation contributes nothing: any two windows with
the same numeric observations produce the same statistic, and the
statistic, when defined, is a (finite) rational, so the band at
subsequent dates is built from finite values rather than poisoned by
the excluded observation.  The final conjunct traces the concrete case
actuals `[1, 2, 4]` against predictions `[0, 1, 1]`: the errors are
`[+inf, 1, 3]`, and at position 2 the variance is the finite `2` (std
`√2`) computed from the two numeric observations alone.  (Definedness
still needs two numeric observations in the window — the separate
`ddof = 1` point recorded at C4.) -/
theorem c5_zero_missing_excluded (a : Option ℚ) (x : ℚ) (es₁ es₂ : List RVal) (i₁ i₂ : ℕ)
    (h : numsOf (window es₁ i₁) = numsOf (window es₂ i₂)) :
    relErr a none = RVal.nan
    ∧ (∀ q, relErr (some x) (some 0) ≠ RVal.num q)
    ∧ rollingVar es₁ i₁ = rollingVar es₂ i₂
    ∧ rollingVar (errsOf [some (1 : ℚ), some 2, some 4] [some (0 : ℚ), some 1, some 1]) 2
        = some 2 := by
  have h0 : relErr (some (1 : ℚ)) (some (0 : ℚ)) = RVal.pinf := by
    show (if (0 : ℚ) = 0
        then (if (0 : ℚ) < 1 then RVal.pinf else if (1 : ℚ) < 0 then RVal.ninf else RVal.nan)
        else RVal.num ((1 - 0) / 0)) = RVal.pinf
    rw [if_pos rfl, if_pos (by norm_num : (0 : ℚ) < 1)]
  have h1 : relErr (some (2 : ℚ)) (some (1 : ℚ)) = RVal.num 1 := by
    rw [relErr_num _ _ (by norm_num)]
    norm_num
  have h2 : relErr (some (4 : ℚ)) (some (1 : ℚ)) = RVal.num 3 := by
    rw [relErr_num _ _ (by norm_num)]
    norm_num
  refine ⟨by cases a <;> rfl, ?_, by simp [rollingVar, h], ?_⟩
  · intro q
    show (if (0 : ℚ) = 0
        then (if 0 < x then RVal.pinf else if x < 0 then RVal.ninf else RVal.nan)
        else RVal.num ((x - 0) / 0)) ≠ RVal.num q
    rw [if_pos rfl]
    by_cases hx1 : 0 < x
    · rw [if_pos hx1]
      exact fun hc => RVal.noConfusion hc
    · rw [if_neg hx1]
      by_cases hx2 : x < 0
      · rw [if_pos hx2]
        exact fun hc => RVal.noConfusion hc
      · rw [if_neg hx2]
        exact fun hc => RVal.noConfusion hc
  · have herr : errsOf [some (1 : ℚ), some 2, some 4] [some (0 : ℚ), some 1, some 1]
        = [RVal.pinf, RVal.num 1, RVal.num 3] := by
      show [relErr (some (1 : ℚ)) (some (0 : ℚ)), relErr (some (2 : ℚ)) (some (1 : ℚ)),
        relErr (some (4 : ℚ)) (some (1 : ℚ))] = _
      rw [h0, h1, h2]
    rw [herr]
    rw [show rollingVar [RVal.pinf, RVal.num 1, RVal.num 3] 2 = some (sampleVar [1, 3]) from rfl]
    congr 1
    norm_num [sampleVar]

/-- C5 witness: a window whose first entry is NaN gives the same
statistic as the window with that observation absent, and the remaining
conjuncts are exercised at concrete inputs. -/
theorem c5_witness :
    numsOf (window [RVal.nan, RVal.num 1, RVal.num 3] 2)
        = numsOf (window [RVal.num 1, RVal.num 3] 1)
    ∧ (relErr (some 5) none = RVal.nan
        ∧ (∀ q, relErr (some (7 : ℚ)) (some 0) ≠ RVal.num q)
        ∧ rollingVar [RVal.nan, RVal.num 1, RVal.num 3] 2
            = rollingVar [RVal.num 1, RVal.num 3] 1
        ∧ rollingVar (errsOf [some (1 : ℚ), some 2, some 4] [some (0 : ℚ), some 1, some 1]) 2
            = some 2) :=
  ⟨rfl,
    c5_zero_missing_excluded (some 5) 7 [RVal.nan, RVal.num 1, RVal.num 3]
      [RVal.num 1, RVal.num 3] 2 1 rfl⟩

/-- C6 (amended): the band brackets the prediction,
`lower ≤ predicted ≤ upper`, whenever the rolling std is nonnegative
*and the predicted value is nonnegative* — the extra hypothesis the
code needs, since for a negative prediction the multiplicative band
flips (see the counterexample). -/
theorem c6_band_bracket_amended (p σ : ℚ) (hσ : 0 ≤ σ) (hp : 0 ≤ p) :
    bandLower p σ ≤ p ∧ p ≤ bandUpper p σ := by
  unfold bandLower bandUpper
  constructor <;> nlinarith

/-- C6 witness: a positive prediction and std, bracketed. -/
theorem c6_witness :
    (0 : ℚ) ≤ 1 / 2 ∧ (0 : ℚ) ≤ 100
    ∧ (bandLower 100 (1 / 2) ≤ 100 ∧ (100 : ℚ) ≤ bandUpper 100 (1 / 2)) :=
  ⟨by norm_num, by norm_num, c6_band_bracket_amended 100 (1 / 2) (by norm_num) (by norm_num)⟩

/-- C6 counterexample: a concrete aligned dataset whose band at position
2 is computed with predicted value `-1` and rolling std `7` (variance
49): the std is nonnegative, yet `lower = 13 > -1 = predicted`, so
`lower ≤ predicted ≤ upper` fails as stated. -/
theorem c6_counterexample :
    predAt [some 1, some 1, some (-1)] 2 = some (-1)
    ∧ rollingVar (errsOf [some (4 : ℚ), some 6, some 7] [some (1 : ℚ), some 1, some (-1)]) 2
        = some 49
    ∧ (0 : ℚ) ≤ 7 ∧ (7 : ℚ) ^ 2 = 49
    ∧ ¬ bandLower (-1) 7 ≤ -1 := by
  have e1 : relErr (some (4 : ℚ)) (some (1 : ℚ)) = RVal.num 3 := by
    rw [relErr_num _ _ (by norm_num)]
    norm_num
  have e2 : relErr (some (6 : ℚ)) (some (1 : ℚ)) = RVal.num 5 := by
    rw [relErr_num _ _ (by norm_num)]
    norm_num
  have e3 : relErr (some (7 : ℚ)) (some (-1 : ℚ)) = RVal.num (-8) := by
    rw [relErr_num _ _ (by norm_num)]
    norm_num
  refine ⟨rfl, ?_, by norm_num, by norm_num, ?_⟩
  · have herr : errsOf [some (4 : ℚ), some 6, some 7] [some (1 : ℚ), some 1, some (-1)]
        = [RVal.num 3, RVal.num 5, RVal.num (-8)] := by
      show [relErr (some (4 : ℚ)) (some (1 : ℚ)), relErr (some (6 : ℚ)) (some (1 : ℚ)),
        relErr (some (7 : ℚ)) (some (-1 : ℚ))] = _
      rw [e1, e2, e3]
    rw [herr]
    rw [show rollingVar [RVal.num 3, RVal.num 5, RVal.num (-8)] 2
        = some (sampleVar [3, 5, -8]) from rfl]
    congr 1
    norm_num [sampleVar]
  · unfold bandLower
    norm_num

/-- Metrics row of the `model_performance` table; only the two columns
the win-rate comparison reads (code lines 221-222) are modelled. -/
structure MRow where
  win_rate : ℚ
  uncond_win_rate : ℚ
  deriving DecidableEq, Repr

/-- Code lines 219-223: for each model whose metrics frame is nonempty,
take the first (most recent) row and emit
`difference = win_rate - uncond_win_rate`; models with an empty frame
are skipped. -/
def winRateDiffs (ms : List (String × List MRow)) : List (String × ℚ) :=
  ms.filterMap fun p => p.2.head?.map fun r => (p.1, r.win_rate - r.uncond_win_rate)

/-- C9: the aggregator emits `edge = win_rate - uncond_win_rate` (in
percentage points) from the most recent summary row of each model, a
model with no summary row is silently omitted rather than an error, and
the two reference examples hold: 55 − 50 = +5 and 40 − 52 = −12. -/
theorem c9_win_rate_edge :
    (∀ (s : String) (r : MRow) (rest : List MRow) (ms : List (String × List MRow)),
        winRateDiffs ((s, r :: rest) :: ms)
          = (s, r.win_rate - r.uncond_win_rate) :: winRateDiffs ms)
    ∧ (∀ (s : String) (ms : List (String × List MRow)),
        winRateDiffs ((s, ([] : List MRow)) :: ms) = winRateDiffs ms)
    ∧ winRateDiffs [("dnn", [MRow.mk 55 50])] = [("dnn", 5)]
    ∧ winRateDiffs [("dnn", [MRow.mk 40 52])] = [("dnn", -12)] := by
  refine ⟨fun s r rest ms => rfl, fun s ms => rfl, ?_, ?_⟩
  · show [("dnn", (55 : ℚ) - 50)] = [("dnn", (5 : ℚ))]
    norm_num
  · show [("dnn", (40 : ℚ) - 52)] = [("dnn", (-12 : ℚ))]
    norm_num

/-- Forecast row as seen by the test-period filter: its date and its
`is_future` flag (only meaningful when the frame has that column). -/
structure PRow where
  date : ℕ
  is_future : Bool
  deriving DecidableEq, Repr

/-- Code lines 161-165: keep rows between the first and last
test-partition dates, and — only when the frame has an
`is_future` column — drop rows flagged as future. -/
def testPredFilter (rows : List PRow) (hasCol : Bool) (lo hi : ℕ) : List PRow :=
  rows.filter fun r => decide (lo ≤ r.date) && decide (r.date ≤ hi)
    && (if hasCol then !r.is_future else true)

/-- C10: when the forecast frame has no `is_future` column the filter is
the pure date-range restriction — every row between the first and last
test dates (inclusive) participates — and only when the column is
present are the rows flagged `is_future` additionally excluded. -/
theorem c10_is_future_optional :
    (∀ (rows : List PRow) (lo hi : ℕ),
        testPredFilter rows false lo hi
          = rows.filter fun r => decide (lo ≤ r.date) && decide (r.date ≤ hi))
    ∧ (∀ (rows : List PRow) (lo hi : ℕ) (r : PRow),
        r ∈ testPredFilter rows true lo hi
          ↔ r ∈ rows ∧ lo ≤ r.date ∧ r.date ≤ hi ∧ r.is_future = false) := by
  constructor
  · intro rows lo hi
    unfold testPredFilter
    simp
  · intro rows lo hi r
    unfold testPredFilter
    simp [List.mem_filter, and_assoc]

/-- Failure that can escape `load_data`. -/
inductive LoadError where
  | indexError
  deriving DecidableEq, Repr

/-- The three models the loader always iterates over (code line 47). -/
def models : List String := ["arima", "prophet", "dnn"]

/-- Per-model normalization inside `load_data`: the SQL restriction to
dates at or after the test start, the numeric coercion, and for `dnn`
the return-to-price conversion (code lines 50-84). -/
def normalizeModel (market : List (ℕ × ℚ)) (ts : ℕ) (s : String) (rows : List RawRow) :
    List NRow :=
  let coerced := normalizePrice (rows.filter fun r => decide (ts ≤ r.date))
  if s = "dnn" then dnnNormalize market coerced else coerced

/-- Code lines 14-102, `load_data`: label the market rows, then for each
model read `market_data.index[val_end]` as the test start — an
IndexError when the series is shorter than that (in particular when it
is empty) — and normalize that model's forecasts. -/
def loadData (market : List (ℕ × ℚ)) (fetch : String → List RawRow) :
    Except LoadError (List ((ℕ × ℚ) × Label) × List (String × List NRow)) :=
  match market.get? (valEnd market.length) with
  | none => Except.error LoadError.indexError
  | some p =>
    Except.ok (market.zip (codeSplits market.length),
      models.map fun s => (s, normalizeModel market p.1 s (fetch s)))

/-- What the dashboard surface shows for one run of `main`
(code lines 290-339). -/
inductive UIOutcome where
  | errorBanner (e : LoadError)
  | noDataWarning
  | dashboard (out : List ((ℕ × ℚ) × Label) × List (String × List NRow))

/-- Code lines 293-339, `main`: a raise anywhere inside the `try` block
is caught by the catch-all and shown as an error banner; only when
`load_data` returns does the `market_data.empty` check fire. -/
def mainOutcome (market : List (ℕ × ℚ)) (fetch : String → List RawRow) : UIOutcome :=
  match loadData market fetch with
  | Except.error e => UIOutcome.errorBanner e
  | Except.ok out =>
    if market.isEmpty then UIOutcome.noDataWarning else UIOutcome.dashboard out

/-- C7 (code bug): on an empty price series `load_data` raises —
`market_data.index[val_end]` (line 49) indexes an empty index — the
exception escapes the pipeline, `main`'s catch-all reports the generic
"Error loading data" fault, and the dedicated "No data available"
branch (lines 300-302) is unreachable, so the claimed signal is never
produced. -/
theorem c7_empty_series_raises (fetch : String → List RawRow) :
    loadData [] fetch = Except.error LoadError.indexError
    ∧ mainOutcome [] fetch = UIOutcome.errorBanner LoadError.indexError
    ∧ mainOutcome [] fetch ≠ UIOutcome.noDataWarning := by
  refine ⟨rfl, rfl, ?_⟩
  intro hcontra
  rw [show mainOutcome [] fetch = UIOutcome.errorBanner LoadError.indexError from rfl] at hcontra
  exact UIOutcome.noConfusion hcontra
